import Mathlib

/-!
Shallow embedding of the agentwatch terminal board view engine
(package `tui`, file `board.go` of the repository), together with the
supporting pieces of `internal/config` and `internal/board` that the
view engine calls.  Go strings are modelled as lists of runes
(`List Char`); Go `int` values that can be negative in the source
(terminal sizes, budgets, width limits) are modelled as `Int`, while
values that are provably non-negative in every execution that does not
panic (list indices, scroll offsets, counts) are modelled as `Nat`.
-/

namespace Agentwatch

/-- A Go string viewed as its sequence of runes. -/
abbrev Str := List Char

/-- Display width of a single rune.  Models the lipgloss / go-runewidth
convention: C0 control characters and combining marks occupy no cells,
East-Asian wide characters occupy two cells, everything else one cell. -/
def runeWidth (c : Char) : Nat :=
  if c.val < 0x20 then 0
  else if 0x300 ≤ c.val ∧ c.val ≤ 0x36F then 0
  else if (0x1100 ≤ c.val ∧ c.val ≤ 0x115F) ∨
          (0x2E80 ≤ c.val ∧ c.val ≤ 0x303E) ∨
          (0x3041 ≤ c.val ∧ c.val ≤ 0x33FF) ∨
          (0x3400 ≤ c.val ∧ c.val ≤ 0x4DBF) ∨
          (0x4E00 ≤ c.val ∧ c.val ≤ 0x9FFF) ∨
          (0xAC00 ≤ c.val ∧ c.val ≤ 0xD7A3) ∨
          (0xF900 ≤ c.val ∧ c.val ≤ 0xFAFF) ∨
          (0xFF00 ≤ c.val ∧ c.val ≤ 0xFF60) then 2
  else 1

/-- Display width of a string: the sum of its rune widths
(`lipgloss.Width` on a single-line string without ANSI sequences). -/
def dispWidth (s : Str) : Nat := (s.map runeWidth).sum

/-- Whitespace test used by `strings.Fields` and `strings.TrimSpace`
(`unicode.IsSpace` restricted to the characters that can occur here). -/
def isSpaceCh (c : Char) : Bool :=
  c = ' ' ∨ c = '\t' ∨ c = '\n' ∨ c = '\x0b' ∨ c = '\x0c' ∨ c = '\r' ∨
  c = '\x85' ∨ c = '\xa0'

/-- Fuel-indexed worker for `fields`; the fuel is only a termination
device and any fuel at least the length of the string gives the same
result (`fieldsF_congr`). -/
def fieldsF : Nat → Str → List Str
  | _, [] => []
  | 0, _ :: _ => []
  | fuel + 1, c :: rest =>
    if isSpaceCh c then fieldsF fuel rest
    else (c :: rest.takeWhile (fun d => ¬ isSpaceCh d)) ::
      fieldsF fuel (rest.dropWhile (fun d => ¬ isSpaceCh d))

/-- Model of `strings.Fields`: split a string around runs of whitespace. -/
def fields (s : Str) : List Str := fieldsF s.length s

/-- Model of `strings.TrimSpace`. -/
def trimSpace (s : Str) : Str :=
  ((s.dropWhile isSpaceCh).reverse.dropWhile isSpaceCh).reverse

/-- Inner loop of `truncate`: starting from `target`, trim runes from the
end until the display width of the kept prefix is at most `limit`
(the Go `for target > 0 && lipgloss.Width(...) > maxLen-3` loop). -/
def trimTarget (runes : Str) (limit : Nat) : Nat → Nat
  | 0 => 0
  | t + 1 => if dispWidth (runes.take (t + 1)) > limit then trimTarget runes limit t
             else t + 1

/-- Model of `truncate` from the tui package: display-width-aware
truncation with a trailing ellipsis, enforcing a minimum effective
width of 4. -/
def truncate (s : Str) (maxLen : Int) : Str :=
  let m : Nat := (max maxLen 4).toNat
  if dispWidth s ≤ m then s
  else
    let target₀ : Nat := min (m - 3) s.length
    let target := trimTarget s (m - 3) target₀
    s.take target ++ ['.', '.', '.']

/-- Append further words to a builder, separated by single spaces (the
`current.WriteByte(' '); current.WriteString(w)` sequence in the last-line
branch of `wrapTitle`). -/
def appendWords (current : Str) (ws : List Str) : Str :=
  ws.foldl (fun acc w => acc ++ ' ' :: w) current

/-- Main loop of `wrapTitle`, recursing over the remaining words and
carrying the emitted lines and the current line builder. -/
def wrapLoop (maxWidth maxLines : Int) :
    List Str → List Str → Str → List Str
  | [], lines, current =>
    if current.length > 0 then lines ++ [truncate current maxWidth] else lines
  | word :: rest, lines, current =>
    if current.length = 0 then wrapLoop maxWidth maxLines rest lines word
    else if (dispWidth current : Int) + 1 + (dispWidth word : Int) ≤ maxWidth then
      wrapLoop maxWidth maxLines rest lines (current ++ ' ' :: word)
    else if ((lines ++ [truncate current maxWidth]).length : Int) = maxLines - 1 then
      (lines ++ [truncate current maxWidth]) ++
        [truncate (appendWords word rest) maxWidth]
    else wrapLoop maxWidth maxLines rest (lines ++ [truncate current maxWidth]) word

/-- Model of `wrapTitle` from the tui package: split a title across at
most `maxLines` lines, word-wrapping at word boundaries. -/
def wrapTitle (title : Str) (maxWidth maxLines : Int) : List Str :=
  let maxLines := max maxLines 1
  if (dispWidth title : Int) ≤ maxWidth ∨ maxLines = 1 then
    [truncate title maxWidth]
  else wrapLoop maxWidth maxLines (fields title) [] []

/-- Join lines with single spaces (for stating the word-preservation
property of `wrapTitle`). -/
def unwords : List Str → Str
  | [] => []
  | [l] => l
  | l :: ls => l ++ ' ' :: unwords ls

/-- A word suitable for lossless wrapping at width `mw`: nonempty, free
of whitespace, and not wider than the budget. -/
def GoodWord (mw : Int) (w : Str) : Prop :=
  w ≠ [] ∧ (∀ c ∈ w, ¬ isSpaceCh c) ∧ (dispWidth w : Int) ≤ mw

/-- Projection of a task record (`internal/task.Task`) onto the fields the
view engine reads.  Timestamps, dependencies and other fields never
consulted by the board renderer are omitted.  Go byte-length (`len`) and
byte-slicing on the assignee and tag strings are modelled as rune counts;
this affects only widths inside a line, never line counts. -/
structure Task where
  id : Int
  title : Str
  status : Str
  priority : Str
  assignee : Str
  tags : List Str
  claimedBy : Str
  body : Str
deriving DecidableEq

/-- Model of `unescapeBody`: replace the literal two-character escape
sequences produced by CLI flags with their whitespace characters. -/
def unescapeBody : Str → Str
  | '\\' :: 'n' :: rest => '\n' :: unescapeBody rest
  | '\\' :: 't' :: rest => '\t' :: unescapeBody rest
  | '\\' :: 'r' :: rest => unescapeBody rest
  | '\\' :: '\\' :: rest => '\\' :: unescapeBody rest
  | c :: rest => c :: unescapeBody rest
  | [] => []

/-- Go `strings.HasPrefix p s`-style test: is the first list an initial
segment of the second. -/
def hasPrefixStr : Str → Str → Bool
  | [], _ => true
  | _ :: _, [] => false
  | p :: ps, c :: cs => p = c ∧ hasPrefixStr ps cs

/-- Decimal rendering of a sequence number (`fmt.Sprintf "%d"`). -/
def decimalStr (n : Nat) : Str := Nat.toDigits 10 n

/-- Lookup in the title-disambiguation map (`b.titleSeq[t.ID]`); the list
stores the most recent write first, matching Go map overwrite semantics. -/
def lookupSeq (m : List (Int × Nat)) (id : Int) : Option Nat :=
  match m with
  | [] => none
  | (k, v) :: rest => if k = id then some v else lookupSeq rest id

/-- Model of `cardContentLines`: the ordered display lines of one card.
Style application (pure ANSI coloring) is the identity on text, so it is
omitted; it changes neither line counts nor display widths. -/
def cardContentLines (seqMap : List (Int × Nat)) (t : Task) (width : Int) :
    List Str :=
  let cardWidth : Int := width - 4
  let cardWidth : Int := if cardWidth < 1 then 1 else cardWidth
  let assigneeSuffix : Str :=
    if t.assignee ≠ [] then ' ' :: ' ' :: t.assignee else []
  let assigneeLen : Int :=
    if t.assignee ≠ [] then (t.assignee.length : Int) + 2 else 0
  let titleLines : List Str :=
    if t.tags ≠ [] ∧ t.tags.headI ≠ t.title then
      let tag0 := t.tags.headI
      let line1 := ("PROJECT: ".toList) ++ truncate tag0 cardWidth
      let branch :=
        if hasPrefixStr (tag0 ++ ['/']) t.title then
          t.title.drop (tag0.length + 1)
        else t.title
      let seqSuffix : Str :=
        match lookupSeq seqMap t.id with
        | some n => ' ' :: '#' :: decimalStr n
        | none => []
      let branchWidth : Int := cardWidth - assigneeLen - (dispWidth seqSuffix : Int)
      let branchWidth : Int := if branchWidth < 1 then 1 else branchWidth
      [line1,
       ("WT/BRANCH: ".toList) ++ truncate branch branchWidth ++ seqSuffix ++
         assigneeSuffix]
    else
      let titleWidth : Int := cardWidth - assigneeLen
      let titleWidth : Int := if titleWidth < 1 then 1 else titleWidth
      [truncate t.title titleWidth ++ assigneeSuffix]
  let claimLines : List Str := if t.claimedBy ≠ [] then [t.claimedBy] else []
  let bodyLines : List Str :=
    if t.body ≠ [] then wrapTitle (trimSpace (unescapeBody t.body)) cardWidth 4
    else []
  titleLines ++ claimLines ++ bodyLines

/-- Model of `cardHeight`: content lines plus top and bottom borders. -/
def cardHeight (seqMap : List (Int × Nat)) (t : Task) (width : Int) : Nat :=
  (cardContentLines seqMap t width).length + 2

/-- Accumulation loop of `fitCardsInHeight` over the tasks from the
scroll offset on, carrying the used height and the running count. -/
def fitGo (seqMap : List (Int × Nat)) (width avail : Int) :
    List Task → Int → Nat → Nat
  | [], _, count => count
  | t :: rest, used, count =>
    let cardLines : Int := (cardHeight seqMap t width : Int)
    if 0 < count ∧ avail < used + cardLines then count
    else if avail ≤ used + cardLines then count + 1
    else fitGo seqMap width avail rest (used + cardLines) (count + 1)

/-- Model of `fitCardsInHeight`: greedy fit of cards into `avail` lines,
always reporting at least one card. -/
def fitCardsInHeight (seqMap : List (Int × Nat)) (tasks : List Task)
    (scrollOff : Nat) (avail width : Int) : Nat :=
  if tasks.length = 0 then 1
  else if avail < 1 then 1
  else
    let count := fitGo seqMap width avail (tasks.drop scrollOff) 0 0
    if count < 1 then 1 else count

/-- Model of `chromeHeight`: blank line + status bar, plus one more line
when the error banner is shown. -/
def chromeHeight (hasErr : Bool) : Nat := 2 + (if hasErr then 1 else 0)

/-- Model of `visibleCardsForColumn`: how many cards of the column fit,
accounting for the header line and scroll indicator lines. -/
def visibleCardsForColumn (seqMap : List (Int × Nat)) (tasks : List Task)
    (scrollOff : Nat) (width height : Int) (hasErr : Bool) : Nat :=
  let budget : Int := height - (chromeHeight hasErr : Int)
  if budget < 1 then 1
  else
    let avail : Int := budget - 1
    let avail : Int := if 0 < scrollOff then avail - 1 else avail
    let n := fitCardsInHeight seqMap tasks scrollOff avail width
    if scrollOff + n < tasks.length then
      let n₂ := fitCardsInHeight seqMap tasks scrollOff (avail - 1) width
      if n₂ < 1 then 1 else n₂
    else n

/-- Body of the `ensureVisible` correction loop: one fuel unit per Go
loop iteration (`for range len(col.tasks)+1`); exiting the loop early
(the `return`) and running out of fuel both leave the current offset. -/
def ensureVisibleGo (seqMap : List (Int × Nat)) (tasks : List Task)
    (width height : Int) (hasErr : Bool) (activeRow : Nat) :
    Nat → Nat → Nat
  | 0, s => s
  | fuel + 1, s =>
    let maxVis := visibleCardsForColumn seqMap tasks s width height hasErr
    if s + maxVis ≤ activeRow then
      ensureVisibleGo seqMap tasks width height hasErr activeRow fuel
        (activeRow - maxVis + 1)
    else if activeRow < s then
      ensureVisibleGo seqMap tasks width height hasErr activeRow fuel activeRow
    else s

/-- Model of `ensureVisible` at the column level: run the correction loop
`len(tasks)+1` times starting from the current scroll offset. -/
def ensureVisibleOff (seqMap : List (Int × Nat)) (tasks : List Task)
    (width height : Int) (hasErr : Bool) (activeRow scrollOff : Nat) : Nat :=
  ensureVisibleGo seqMap tasks width height hasErr activeRow
    (tasks.length + 1) scrollOff

/-- A minimal concrete task fixture used by the concrete witnesses. -/
def plainTask (id : Int) (title : Str) (body : Str) : Task :=
  { id := id, title := title, status := "todo".toList,
    priority := "high".toList, assignee := [], tags := [], claimedBy := [],
    body := body }

/-- A four-task column fixture used by the concrete witnesses. -/
def fourTasks : List Task :=
  [plainTask 1 ("a".toList) [], plainTask 2 ("b".toList) [],
   plainTask 3 ("c".toList) [], plainTask 4 ("d".toList) []]

/-- The reserved status name for soft-deleted tasks
(`config.ArchivedStatus`). -/
def archivedStatus : Str := "archived".toList

/-- The slice of `config.Config` the view engine reads: board name, the
ordered status names, and the ordered priorities. -/
structure Cfg where
  boardName : Str
  statusNames : List Str
  priorities : List Str
deriving DecidableEq

/-- Model of `Config.IsArchivedStatus`. -/
def isArchivedStatus (cfg : Cfg) (s : Str) : Bool :=
  decide (s = archivedStatus ∧ archivedStatus ∈ cfg.statusNames)

/-- Model of `Config.BoardStatuses`: the status names minus the archived
status. -/
def boardStatuses (cfg : Cfg) : List Str :=
  cfg.statusNames.filter (fun s => ¬ s = archivedStatus)

/-- Model of `config.IndexOf` (-1 when the item is absent), used by
`PriorityIndex`. -/
def indexOfStrFrom (item : Str) (i : Int) : List Str → Int
  | [] => -1
  | s :: rest => if s = item then i else indexOfStrFrom item (i + 1) rest

/-- Model of `Config.PriorityIndex`. -/
def priorityIndex (cfg : Cfg) (p : Str) : Int :=
  indexOfStrFrom p 0 cfg.priorities

/-- Model of `compareTasks` for the "priority" field. -/
def compareTasksPriority (cfg : Cfg) (a b : Task) : Bool :=
  decide (priorityIndex cfg a.priority < priorityIndex cfg b.priority)

/-- The comparator actually passed to `sort.SliceStable` by `board.Sort`
with `reverse = true`: the negation of the priority comparison. -/
def sortLessRev (cfg : Cfg) (a b : Task) : Bool :=
  ! compareTasksPriority cfg a b

/-- Stable insertion of one task under a Boolean comparator. -/
def insertStable (lt : Task → Task → Bool) (x : Task) : List Task → List Task
  | [] => [x]
  | y :: ys => if lt x y then x :: y :: ys else y :: insertStable lt x ys

/-- Stable insertion sort under a Boolean comparator.  `board.Sort` uses
Go's `sort.SliceStable`, whose behaviour on ties is not specified for the
negated comparator it receives when `reverse` is set; this model is a
stable insertion sort with the same comparator, and every concrete
instance evaluated in this file uses pairwise-distinct priorities, where
all comparison sorts agree. -/
def sortTasksBy (lt : Task → Task → Bool) : List Task → List Task
  | [] => []
  | x :: xs => insertStable lt x (sortTasksBy lt xs)

/-- Model of `board.Sort(tasks, "priority", true, cfg)`. -/
def boardSortPriorityRev (cfg : Cfg) (ts : List Task) : List Task :=
  sortTasksBy (sortLessRev cfg) ts

/-- A board column: status label, its tasks, and the scroll offset. -/
structure Column where
  status : Str
  tasks : List Task
  scrollOff : Nat
deriving DecidableEq

/-- Append a task to the first column whose status matches
(the inner loop of `loadTasks`). -/
def addToFirstMatching (t : Task) : List Column → List Column
  | [] => []
  | c :: cs =>
    if c.status = t.status then { c with tasks := c.tasks ++ [t] } :: cs
    else c :: addToFirstMatching t cs

/-- Build the columns of `loadTasks`: one fresh column per display status
(scroll offset zero), then distribute the sorted tasks. -/
def buildColumns (statuses : List Str) (ts : List Task) : List Column :=
  ts.foldl (fun cols t => addToFirstMatching t cols)
    (statuses.map (fun st => { status := st, tasks := [], scrollOff := 0 }))

/-- Number of column-assigned tasks sharing a title (`titleCount`). -/
def countTitle (ts : List Task) (title : Str) : Nat :=
  (ts.filter (fun t => t.title = title)).length

/-- Lookup in the per-title running counter (`titleNext`), defaulting
to 0 like a Go map read. -/
def lookupNext (title : Str) : List (Str × Nat) → Nat
  | [] => 0
  | (k, v) :: rest => if k = title then v else lookupNext title rest

/-- Worker for `buildTitleSeq`; the accumulator keeps the most recent
id-to-sequence write first, matching Go map overwrite semantics. -/
def buildTitleSeqGo (allTs : List Task) :
    List Task → List (Str × Nat) → List (Int × Nat) → List (Int × Nat)
  | [], _, acc => acc
  | t :: rest, next, acc =>
    if 1 < countTitle allTs t.title then
      let n := lookupNext t.title next + 1
      buildTitleSeqGo allTs rest ((t.title, n) :: next) ((t.id, n) :: acc)
    else buildTitleSeqGo allTs rest next acc

/-- Model of the title-disambiguation map computed by `loadTasks` from
the column-assigned tasks (in column order). -/
def buildTitleSeq (colTasks : List Task) : List (Int × Nat) :=
  buildTitleSeqGo colTasks colTasks [] []

/-- The view modes of the board (`viewBoard`, `viewConfirmDelete`,
`viewConfirmClearAll`). -/
inductive BView
  | board
  | confirmDelete
  | confirmClearAll
deriving DecidableEq

/-- The board model (`tui.Board`).  The clock function `now` is passed as
an argument where needed; the error is the message string. -/
structure Board where
  cfg : Cfg
  tasks : List Task
  columns : List Column
  activeCol : Nat
  activeRow : Nat
  view : BView
  width : Int
  height : Int
  err : Option Str
  deleteID : Int
  deleteTitle : Str
  clearAllCount : Nat
  lastClickCol : Nat
  lastClickRow : Nat
  lastClickTime : Int
  titleSeq : List (Int × Nat)
deriving DecidableEq

/-- Model of `columnWidth`: an equal share of the terminal width, capped
at 75, with a default of 30 before the first resize.  Go integer division
truncates toward zero (`Int.tdiv`). -/
def columnWidth (b : Board) : Int :=
  if b.width = 0 ∨ b.columns.length = 0 then 30
  else min (Int.tdiv b.width (b.columns.length : Int)) 75

/-- Model of `ensureVisible` at the board level: adjust the active
column's scroll offset (no-op when the active column index is out of
range, as in `currentColumn`). -/
def Board.ensureVisible (b : Board) : Board :=
  match b.columns[b.activeCol]? with
  | none => b
  | some col =>
    let s := ensureVisibleOff b.titleSeq col.tasks (columnWidth b) b.height
      b.err.isSome b.activeRow col.scrollOff
    { b with columns := b.columns.set b.activeCol { col with scrollOff := s } }

/-- Model of `clampRow`: reset the row when the column is missing or
empty, clamp it to the last task otherwise, then re-run
`ensureVisible`. -/
def Board.clampRow (b : Board) : Board :=
  match b.columns[b.activeCol]? with
  | none => { b with activeRow := 0 }
  | some col =>
    if col.tasks.length = 0 then { b with activeRow := 0 }
    else
      Board.ensureVisible
        (if col.tasks.length ≤ b.activeRow then
          { b with activeRow := col.tasks.length - 1 }
        else b)

/-- Model of `loadTasks`.  The I/O boundary (`task.ReadAllLenient`) is
passed in as `readResult`: an error message, or the full task list read
from storage. -/
def loadTasks (b : Board) (readResult : Except Str (List Task)) : Board :=
  match readResult with
  | .error e => { b with err := some e }
  | .ok tasks =>
    let visibleTasks := tasks.filter (fun t => ¬ isArchivedStatus b.cfg t.status)
    let sorted := boardSortPriorityRev b.cfg visibleTasks
    let columns := buildColumns (boardStatuses b.cfg) sorted
    let seq := buildTitleSeq ((columns.map Column.tasks).flatten)
    Board.clampRow
      { b with err := none, tasks := sorted, columns := columns,
               titleSeq := seq }

/-- Model of `handleClearAllStart`: capture the task count and open the
confirmation dialog when there is something to clear. -/
def handleClearAllStart (b : Board) : Board :=
  let b₁ := { b with clearAllCount := b.tasks.length }
  if 0 < b₁.clearAllCount then { b₁ with view := BView.confirmClearAll }
  else b₁

/-- The tasks written back as archived by `executeClearAll`, as a function
of the freshly read task list: every non-archived task is archived.
(The `Updated` timestamp write is outside the modelled projection.) -/
def executeClearAllWrites (cfg : Cfg) (readTasks : List Task) : List Task :=
  (readTasks.filter (fun t => ¬ isArchivedStatus cfg t.status)).map
    (fun t => { t with status := archivedStatus })

/-- Model of `renderStatusBar`: the status line, preceded by a one-line
error banner when an error is present.  Style application is the
identity on text. -/
def renderStatusBar (b : Board) : Str :=
  let status := truncate
    ((' ' :: b.cfg.boardName) ++ (" | ".toList) ++ decimalStr b.tasks.length ++
      (" tasks | d:del C:clear-all q:quit".toList)) b.width
  match b.err with
  | some e => truncate (("Error: ".toList) ++ e) b.width ++ '\n' :: status
  | none => status

/-- The commands the update function can return; `Cmd.quit` models
`tea.Quit` and `Cmd.none` a nil command. -/
inductive Cmd
  | none
  | tick
  | quit
deriving DecidableEq

/-- The `ReloadMsg` arm of `Update`: reload and return a nil command
(the event loop keeps running). -/
def updateReload (b : Board) (readResult : Except Str (List Task)) :
    Board × Cmd :=
  (loadTasks b readResult, Cmd.none)

/-- Mouse event projection (`tea.MouseMsg`). -/
inductive MouseAction
  | press
  | release
  | motion
deriving DecidableEq

/-- Mouse buttons (only the left button is acted upon). -/
inductive MouseButton
  | left
  | right
  | middle
deriving DecidableEq

/-- A mouse event: terminal cell coordinates, action and button. -/
structure MouseMsg where
  x : Nat
  y : Nat
  action : MouseAction
  button : MouseButton
deriving DecidableEq

/-- The card hit-walk of `handleMouse`: starting at the scroll offset,
accumulate card heights until the clicked line falls inside a card. -/
def hitGo (seqMap : List (Int × Nat)) (width lineY : Int) :
    List Task → Nat → Int → Option Nat
  | [], _, _ => none
  | t :: rest, rowIdx, cardLine =>
    let cardH : Int := (cardHeight seqMap t width : Int)
    if lineY < cardLine + cardH then some rowIdx
    else hitGo seqMap width lineY rest (rowIdx + 1) (cardLine + cardH)

/-- Model of `handleMouse`.  Returns the new board and whether the
activate (external focus) effect fired.  The clock value `now` is the
argument for `b.now()`.  The out-of-range column lookup arm is
unreachable under the length guard (Go indexes the slice directly). -/
def handleMouse (b : Board) (msg : MouseMsg) (now : Int) : Board × Bool :=
  if msg.action ≠ MouseAction.press ∨ msg.button ≠ MouseButton.left then
    (b, false)
  else if b.view ≠ BView.board then (b, false)
  else
    let colWidth := columnWidth b
    let clickedCol : Int := Int.tdiv (msg.x : Int) colWidth
    if (b.columns.length : Int) ≤ clickedCol then (b, false)
    else
      match b.columns[clickedCol.toNat]? with
      | none => (b, false)
      | some col =>
        let lineY : Int := (msg.y : Int) - 1
        if lineY < 0 then
          (Board.clampRow { b with activeCol := clickedCol.toNat }, false)
        else
          match hitGo b.titleSeq colWidth lineY
              (col.tasks.drop col.scrollOff) col.scrollOff 0 with
          | none =>
            (Board.clampRow { b with activeCol := clickedCol.toNat }, false)
          | some clickedRow =>
            let isDoubleClick := decide (clickedCol.toNat = b.lastClickCol ∧
              clickedRow = b.lastClickRow ∧ now - b.lastClickTime < 500000000)
            (Board.ensureVisible
              { b with activeCol := clickedCol.toNat, activeRow := clickedRow,
                       lastClickCol := clickedCol.toNat,
                       lastClickRow := clickedRow, lastClickTime := now },
             isDoubleClick)

/-- Model of `selectedTask`: the task under the cursor, when any. -/
def selectedTask (b : Board) : Option Task :=
  match b.columns[b.activeCol]? with
  | none => none
  | some col =>
    if col.tasks.length = 0 then none
    else
      match col.tasks[b.activeRow]? with
      | some t => some t
      | none => none

/-- A task fixture with explicit status and priority. -/
def taskD (id : Int) (title status priority : String) : Task :=
  { id := id, title := title.toList, status := status.toList,
    priority := priority.toList, assignee := [], tags := [], claimedBy := [],
    body := [] }

/-- A two-column configuration fixture. -/
def cfgTwo : Cfg :=
  { boardName := "b".toList,
    statusNames := ["todo".toList, "doing".toList],
    priorities := ["p1".toList, "p2".toList, "p3".toList] }

/-- A fresh board fixture over `cfgTwo`. -/
def boardInit : Board :=
  { cfg := cfgTwo, tasks := [], columns := [], activeCol := 0, activeRow := 0,
    view := BView.board, width := 40, height := 12, err := none, deleteID := 0,
    deleteTitle := [], clearAllCount := 0, lastClickCol := 0, lastClickRow := 0,
    lastClickTime := 0, titleSeq := [] }

/-- Three tasks with pairwise distinct priorities. -/
def tasksThree : List Task :=
  [taskD 1 "a" "todo" "p3", taskD 2 "b" "doing" "p2", taskD 3 "c" "doing" "p1"]

/-- A loaded board whose second (non-active) column has been scrolled to
offset 1. -/
def boardScrolled : Board :=
  let b₁ := loadTasks boardInit (Except.ok tasksThree)
  { b₁ with
    columns := b₁.columns.map
      (fun c =>
        if c.status = ("doing".toList) then { c with scrollOff := 1 } else c) }

/-- A loaded two-column board fixture for the mouse witnesses. -/
def bW : Board := loadTasks boardInit (Except.ok tasksThree)

/-- A left-button press on the second column's first card. -/
def msgW : MouseMsg :=
  { x := 25, y := 2, action := MouseAction.press, button := MouseButton.left }

/-- The second column of `bW` as a literal. -/
def colW : Column :=
  { status := "doing".toList,
    tasks := [taskD 2 "b" "doing" "p2", taskD 3 "c" "doing" "p1"],
    scrollOff := 0 }

/-- The board after a first click on (column 1, row 0) at time 100. -/
def bDouble : Board := (handleMouse bW msgW 100).1

theorem dropWhile_length_le {α : Type} (p : α → Bool) (l : List α) :
    (l.dropWhile p).length ≤ l.length := by
  induction l with
  | nil => simp [List.dropWhile]
  | cons c rest ih =>
    by_cases h : p c
    · simp [List.dropWhile, h]; omega
    · simp [List.dropWhile, h]

theorem fieldsF_congr (fuel : Nat) :
    ∀ (fuel' : Nat) (s : Str), s.length ≤ fuel → s.length ≤ fuel' →
      fieldsF fuel s = fieldsF fuel' s := by
  induction fuel with
  | zero =>
    intro fuel' s h _
    have : s = [] := List.length_eq_zero.mp (Nat.le_zero.mp h)
    subst this
    cases fuel' <;> rfl
  | succ fuel ih =>
    intro fuel' s h h'
    cases s with
    | nil => cases fuel' <;> rfl
    | cons c rest =>
      cases fuel' with
      | zero => simp at h'
      | succ fuel' =>
        simp only [fieldsF]
        simp only [List.length_cons] at h h'
        by_cases hc : isSpaceCh c
        · rw [if_pos hc, if_pos hc]
          exact ih fuel' rest (by omega) (by omega)
        · rw [if_neg hc, if_neg hc]
          have hd : (rest.dropWhile (fun d => ¬ isSpaceCh d)).length ≤ rest.length :=
            dropWhile_length_le _ rest
          rw [ih fuel' _ (by omega) (by omega)]

theorem fields_nil : fields [] = [] := rfl

theorem fields_cons_space {c : Char} (rest : Str) (hc : isSpaceCh c) :
    fields (c :: rest) = fields rest := by
  simp only [fields, List.length_cons, fieldsF]
  rw [if_pos hc]

theorem fields_cons_word {c : Char} (rest : Str) (hc : ¬ isSpaceCh c) :
    fields (c :: rest) =
      (c :: rest.takeWhile (fun d => ¬ isSpaceCh d)) ::
        fields (rest.dropWhile (fun d => ¬ isSpaceCh d)) := by
  simp only [fields, List.length_cons, fieldsF]
  rw [if_neg hc]
  have hd : (rest.dropWhile (fun d => ¬ isSpaceCh d)).length ≤ rest.length :=
    dropWhile_length_le _ rest
  rw [fieldsF_congr _ _ _ (by omega) le_rfl]

theorem dispWidth_append (a b : Str) :
    dispWidth (a ++ b) = dispWidth a + dispWidth b := by
  simp [dispWidth]

theorem trimTarget_take_le (s : Str) (limit : Nat) (t : Nat) :
    dispWidth (s.take (trimTarget s limit t)) ≤ limit := by
  induction t with
  | zero => simp [trimTarget, dispWidth]
  | succ t ih =>
    rw [trimTarget]
    by_cases h : dispWidth (s.take (t + 1)) > limit
    · simp only [h, if_true]
      exact ih
    · simp only [if_neg h]
      exact Nat.le_of_not_lt h

theorem dispWidth_truncate_le (s : Str) (maxLen : Int) :
    dispWidth (truncate s maxLen) ≤ (max maxLen 4).toNat := by
  rw [truncate]
  by_cases h : dispWidth s ≤ (max maxLen 4).toNat
  · simp only [if_pos h]
    exact h
  · have hm : (4 : Nat) ≤ (max maxLen 4).toNat := by
      have : (4 : Int) ≤ max maxLen 4 := le_max_right _ _
      omega
    have htrim := trimTarget_take_le s ((max maxLen 4).toNat - 3)
      (min ((max maxLen 4).toNat - 3) s.length)
    simp only [h, if_false, dispWidth_append]
    have hdots : dispWidth ['.', '.', '.'] = 3 := by decide
    rw [hdots]
    omega

/-- Claim C9: `truncate` enforces a minimum effective width of 4 — for any
`maxLen < 4` it behaves exactly as for `maxLen = 4` — and whenever it
actually truncates, the result is a rune-boundary prefix of the input
followed by an ellipsis. -/
theorem truncate_min_effective_width (s : Str) (maxLen : Int) :
    (maxLen < 4 → truncate s maxLen = truncate s 4) ∧
    (truncate s maxLen ≠ s →
      ∃ n : Nat, truncate s maxLen = s.take n ++ ['.', '.', '.']) := by
  constructor
  · intro h
    have hmax : max maxLen 4 = max (4 : Int) 4 := by
      rw [max_eq_right (le_of_lt h)]; simp
    simp only [truncate, hmax]
  · intro hne
    rw [truncate] at hne ⊢
    by_cases hw : dispWidth s ≤ (max maxLen 4).toNat
    · simp [hw] at hne
    · simp only [hw, if_false]
      exact ⟨_, rfl⟩

/-- Witness for C9 at a concrete input: requesting width 2 behaves like
width 4, and the result is a prefix of the input plus an ellipsis. -/
theorem truncate_min_effective_width_witness :
    truncate ("abcdef".toList) 2 = truncate ("abcdef".toList) 4 ∧
    ∃ n : Nat,
      truncate ("abcdef".toList) 2 = ("abcdef".toList).take n ++ ['.', '.', '.'] :=
  ⟨(truncate_min_effective_width _ 2).1 (by norm_num),
   (truncate_min_effective_width _ 2).2 (by decide)⟩

theorem wrapLoop_mem (maxWidth maxLines : Int) (ws : List Str) :
    ∀ (lines : List Str) (current : Str) (l : Str),
      l ∈ wrapLoop maxWidth maxLines ws lines current →
      l ∈ lines ∨ ∃ s, l = truncate s maxWidth := by
  induction ws with
  | nil =>
    intro lines current l hl
    rw [wrapLoop] at hl
    by_cases h : current.length > 0
    · rw [if_pos h] at hl
      rcases List.mem_append.mp hl with h1 | h2
      · exact Or.inl h1
      · exact Or.inr ⟨current, List.mem_singleton.mp h2⟩
    · rw [if_neg h] at hl
      exact Or.inl hl
  | cons word rest ih =>
    intro lines current l hl
    rw [wrapLoop] at hl
    by_cases h0 : current.length = 0
    · rw [if_pos h0] at hl
      exact ih lines word l hl
    · rw [if_neg h0] at hl
      by_cases h1 : (dispWidth current : Int) + 1 + (dispWidth word : Int) ≤ maxWidth
      · rw [if_pos h1] at hl
        exact ih lines (current ++ ' ' :: word) l hl
      · rw [if_neg h1] at hl
        by_cases h2 :
            (((lines ++ [truncate current maxWidth]).length : Int) = maxLines - 1)
        · rw [if_pos h2] at hl
          rcases List.mem_append.mp hl with h3 | h4
          · rcases List.mem_append.mp h3 with h5 | h6
            · exact Or.inl h5
            · exact Or.inr ⟨current, List.mem_singleton.mp h6⟩
          · exact Or.inr ⟨appendWords word rest, List.mem_singleton.mp h4⟩
        · rw [if_neg h2] at hl
          rcases ih (lines ++ [truncate current maxWidth]) word l hl with h3 | h4
          · rcases List.mem_append.mp h3 with h5 | h6
            · exact Or.inl h5
            · exact Or.inr ⟨current, List.mem_singleton.mp h6⟩
          · exact Or.inr h4

theorem dispWidth_truncate_le_int (s : Str) (maxLen : Int) :
    (dispWidth (truncate s maxLen) : Int) ≤ max maxLen 4 := by
  have h := dispWidth_truncate_le s maxLen
  have h0 : (0 : Int) ≤ max maxLen 4 := le_trans (by norm_num) (le_max_right _ _)
  omega

/-- Counterexample to claim C6 as stated: with a width budget of 2,
`wrapTitle` produces the line "a..." of display width 4, because
`truncate` enforces a minimum effective width of 4. -/
theorem wrapTitle_line_width_counterexample :
    ¬ (∀ l ∈ wrapTitle ("abcdef".toList) 2 2, (dispWidth l : Int) ≤ 2) := by
  decide

/-- Claim C6, amended: every line produced by `wrapTitle` has display
width at most `max maxWidth 4` — the bound is the width budget except
for budgets below `truncate`'s minimum effective width of 4. -/
theorem wrapTitle_line_width_le (title : Str) (maxWidth maxLines : Int)
    (l : Str) (hl : l ∈ wrapTitle title maxWidth maxLines) :
    (dispWidth l : Int) ≤ max maxWidth 4 := by
  rw [wrapTitle] at hl
  by_cases h : (dispWidth title : Int) ≤ maxWidth ∨ max maxLines 1 = 1
  · rw [if_pos h] at hl
    rw [List.mem_singleton.mp hl]
    exact dispWidth_truncate_le_int _ _
  · rw [if_neg h] at hl
    rcases wrapLoop_mem _ _ _ _ _ _ hl with h1 | ⟨s, hs⟩
    · simp at h1
    · rw [hs]
      exact dispWidth_truncate_le_int _ _

/-- Witness for the amended C6 at a concrete input. -/
theorem wrapTitle_line_width_le_witness :
    (dispWidth (['a', '.', '.', '.'] : Str) : Int) ≤ max 2 4 :=
  wrapTitle_line_width_le ("abcdef".toList) 2 2 ['a', '.', '.', '.'] (by decide)

theorem truncate_eq_self (s : Str) (maxLen : Int)
    (h : (dispWidth s : Int) ≤ maxLen) : truncate s maxLen = s := by
  rw [truncate]
  have : dispWidth s ≤ (max maxLen 4).toNat := by
    have h2 : (dispWidth s : Int) ≤ max maxLen 4 := le_trans h (le_max_left _ _)
    omega
  rw [if_pos this]

theorem takeWhile_append_all {α : Type} (p : α → Bool) (w s : List α)
    (hw : ∀ x ∈ w, p x) : (w ++ s).takeWhile p = w ++ s.takeWhile p := by
  induction w with
  | nil => simp
  | cons c w ih =>
    have hc : p c := hw c (by simp)
    simp only [List.cons_append, List.takeWhile_cons, hc, if_true]
    rw [ih (fun x hx => hw x (by simp [hx]))]

theorem dropWhile_append_all {α : Type} (p : α → Bool) (w s : List α)
    (hw : ∀ x ∈ w, p x) : (w ++ s).dropWhile p = s.dropWhile p := by
  induction w with
  | nil => simp
  | cons c w ih =>
    have hc : p c := hw c (by simp)
    simp only [List.cons_append, List.dropWhile_cons, hc, if_true]
    exact ih (fun x hx => hw x (by simp [hx]))

theorem fieldsF_good (fuel : Nat) :
    ∀ (s : Str) (w : Str), w ∈ fieldsF fuel s →
      w ≠ [] ∧ ∀ c ∈ w, ¬ isSpaceCh c := by
  induction fuel with
  | zero =>
    intro s w hw
    cases s <;> simp [fieldsF] at hw
  | succ fuel ih =>
    intro s w hw
    cases s with
    | nil => simp [fieldsF] at hw
    | cons c rest =>
      rw [fieldsF] at hw
      by_cases hc : isSpaceCh c
      · rw [if_pos hc] at hw
        exact ih rest w hw
      · rw [if_neg hc] at hw
        rcases List.mem_cons.mp hw with h1 | h2
        · subst h1
          refine ⟨by simp, ?_⟩
          intro d hd
          rcases List.mem_cons.mp hd with h3 | h4
          · subst h3; exact hc
          · have := List.mem_takeWhile_imp h4
            simpa using this
        · exact ih _ w h2

theorem fields_good (s : Str) (w : Str) (hw : w ∈ fields s) :
    w ≠ [] ∧ ∀ c ∈ w, ¬ isSpaceCh c :=
  fieldsF_good _ s w hw

theorem unwords_ne_nil (g : List Str) (hg : g ≠ [])
    (hne : ∀ w ∈ g, w ≠ []) : unwords g ≠ [] := by
  cases g with
  | nil => exact absurd rfl hg
  | cons w ws =>
    cases ws with
    | nil => exact hne w (by simp)
    | cons y ys =>
      have hred : unwords (w :: y :: ys) = w ++ ' ' :: unwords (y :: ys) := rfl
      rw [hred]
      simp

theorem unwords_append (g₁ g₂ : List Str) (h₁ : g₁ ≠ []) (h₂ : g₂ ≠ []) :
    unwords (g₁ ++ g₂) = unwords g₁ ++ ' ' :: unwords g₂ := by
  induction g₁ with
  | nil => exact absurd rfl h₁
  | cons w ws ih =>
    cases ws with
    | nil =>
      cases g₂ with
      | nil => exact absurd rfl h₂
      | cons y ys => simp [unwords]
    | cons x xs =>
      have hx : (x :: xs : List Str) ≠ [] := by simp
      have step : unwords ((w :: x :: xs) ++ g₂) =
          w ++ ' ' :: unwords ((x :: xs) ++ g₂) := by
        cases g₂ with
        | nil => exact absurd rfl h₂
        | cons y ys => rfl
      rw [step, ih hx]
      have hred : unwords (w :: x :: xs) = w ++ ' ' :: unwords (x :: xs) := rfl
      rw [hred]
      simp

theorem fields_word_append (w : Str) (s : Str) (hw : w ≠ [])
    (hgood : ∀ c ∈ w, ¬ isSpaceCh c)
    (hs : ∀ c, s.head? = some c → isSpaceCh c) :
    fields (w ++ s) = w :: fields s := by
  cases w with
  | nil => exact absurd rfl hw
  | cons c cs =>
    have hc : ¬ isSpaceCh c := hgood c (by simp)
    rw [List.cons_append, fields_cons_word _ hc]
    have htk : (cs ++ s).takeWhile (fun d => ¬ isSpaceCh d) = cs := by
      rw [takeWhile_append_all _ cs s (by intro x hx; simp [hgood x (by simp [hx])])]
      have : s.takeWhile (fun d => ¬ isSpaceCh d) = [] := by
        cases s with
        | nil => rfl
        | cons a as =>
          have := hs a (by simp)
          simp [List.takeWhile_cons, this]
      rw [this, List.append_nil]
    have hdp : (cs ++ s).dropWhile (fun d => ¬ isSpaceCh d) = s := by
      rw [dropWhile_append_all _ cs s (by intro x hx; simp [hgood x (by simp [hx])])]
      cases s with
      | nil => rfl
      | cons a as =>
        have := hs a (by simp)
        simp [List.dropWhile_cons, this]
    rw [htk, hdp]

theorem fields_unwords_eq (ws : List Str)
    (h : ∀ w ∈ ws, w ≠ [] ∧ ∀ c ∈ w, ¬ isSpaceCh c) :
    fields (unwords ws) = ws := by
  induction ws with
  | nil => rfl
  | cons w rest ih =>
    cases rest with
    | nil =>
      have hw := h w (by simp)
      have := fields_word_append w [] hw.1 hw.2 (by intro c hc; simp at hc)
      simpa [unwords] using this
    | cons x xs =>
      have hw := h w (by simp)
      have hrest : ∀ v ∈ (x :: xs : List Str), v ≠ [] ∧ ∀ c ∈ v, ¬ isSpaceCh c :=
        fun v hv => h v (by simp [hv])
      have hstep : unwords (w :: x :: xs) = w ++ ' ' :: unwords (x :: xs) := rfl
      rw [hstep]
      rw [fields_word_append w (' ' :: unwords (x :: xs)) hw.1 hw.2
        (by intro c hc; simp at hc; subst hc; decide)]
      rw [fields_cons_space _ (by decide)]
      rw [ih hrest]

theorem dispWidth_space_sep (a b : Str) :
    dispWidth (a ++ ' ' :: b) = dispWidth a + 1 + dispWidth b := by
  rw [dispWidth_append]
  have h1 : dispWidth (' ' :: b) = 1 + dispWidth b := by
    have : runeWidth ' ' = 1 := by decide
    simp [dispWidth, this]
  omega

theorem unwords_append_single (g : List Str) (w : Str) (hg : g ≠ []) :
    unwords (g ++ [w]) = unwords g ++ ' ' :: w := by
  rw [unwords_append g [w] hg (by simp)]
  rfl

theorem groups_length_le_join (gs : List (List Str))
    (h : ∀ grp ∈ gs, grp ≠ []) : gs.length ≤ gs.flatten.length := by
  induction gs with
  | nil => simp
  | cons g rest ih =>
    have hg : g ≠ [] := h g (by simp)
    have h1 : 1 ≤ g.length := List.length_pos.mpr hg
    have h2 := ih (fun grp hgrp => h grp (by simp [hgrp]))
    simp only [List.flatten_cons, List.length_cons, List.length_append]
    omega

theorem join_ne_nil (gs : List (List Str)) (h : ∀ grp ∈ gs, grp ≠ [])
    (hgs : gs ≠ []) : gs.flatten ≠ [] := by
  cases gs with
  | nil => exact absurd rfl hgs
  | cons g rest =>
    have hg : g ≠ [] := h g (by simp)
    simp only [List.flatten_cons]
    intro hc
    exact hg (List.append_eq_nil.mp hc).1

theorem unwords_map_join (gs : List (List Str))
    (h : ∀ grp ∈ gs, grp ≠ []) :
    unwords (gs.map unwords) = unwords gs.flatten := by
  induction gs with
  | nil => rfl
  | cons g rest ih =>
    cases rest with
    | nil => simp [unwords, List.flatten]
    | cons g₂ rest₂ =>
      have hg : g ≠ [] := h g (by simp)
      have hrest : ∀ grp ∈ (g₂ :: rest₂ : List (List Str)), grp ≠ [] :=
        fun grp hgrp => h grp (by simp [hgrp])
      have hjoin : (g₂ :: rest₂ : List (List Str)).flatten ≠ [] :=
        join_ne_nil _ hrest (by simp)
      have hstep : unwords ((g :: g₂ :: rest₂).map unwords) =
          unwords g ++ ' ' :: unwords ((g₂ :: rest₂).map unwords) := rfl
      rw [hstep, ih hrest]
      have houter : (g :: g₂ :: rest₂ : List (List Str)).flatten =
          g ++ (g₂ :: rest₂).flatten := rfl
      rw [houter, unwords_append g _ hg hjoin]

theorem wrapLoop_groups (mw m : Int) (ws : List Str) :
    ∀ (gs : List (List Str)) (g : List Str),
      (∀ w ∈ ws, GoodWord mw w) →
      (∀ grp ∈ gs, grp ≠ [] ∧ ∀ w ∈ grp, GoodWord mw w) →
      (∀ w ∈ g, GoodWord mw w) →
      (dispWidth (unwords g) : Int) ≤ mw →
      ((gs.flatten.length : Int) + g.length + ws.length ≤ m) →
      ∃ gss : List (List Str),
        wrapLoop mw m ws (gs.map unwords) (unwords g) = (gs ++ gss).map unwords ∧
        gss.flatten = g ++ ws ∧
        ∀ grp ∈ gss, grp ≠ [] ∧ ∀ w ∈ grp, GoodWord mw w := by
  induction ws with
  | nil =>
    intro gs g _ hgs hg hwid _
    by_cases hg0 : g = []
    · subst hg0
      refine ⟨[], ?_, by simp, by simp⟩
      rw [wrapLoop]
      have h0 : unwords ([] : List Str) = [] := rfl
      rw [h0]
      simp
    · have hne := unwords_ne_nil g hg0 (fun w hw => (hg w hw).1)
      refine ⟨[g], ?_, by simp, ?_⟩
      · rw [wrapLoop, if_pos (List.length_pos.mpr hne), truncate_eq_self _ _ hwid]
        simp
      · intro grp hgrp
        rw [List.mem_singleton.mp hgrp]
        exact ⟨hg0, hg⟩
  | cons word rest ih =>
    intro gs g hws hgs hg hwid hcount
    have hword : GoodWord mw word := hws word (by simp)
    have hrest : ∀ w ∈ rest, GoodWord mw w := fun w hw => hws w (by simp [hw])
    rw [wrapLoop]
    by_cases hg0 : g = []
    · subst hg0
      rw [if_pos (show (unwords ([] : List Str)).length = 0 from rfl)]
      obtain ⟨gss, h1, h2, h3⟩ := ih gs [word] hrest hgs
        (by intro w hw; rw [List.mem_singleton.mp hw]; exact hword)
        (by exact hword.2.2)
        (by
          simp only [List.length_cons, List.length_nil, List.length_singleton]
            at hcount ⊢
          push_cast at hcount ⊢
          omega)
      refine ⟨gss, h1, ?_, h3⟩
      rw [h2]
      simp
    · have hne := unwords_ne_nil g hg0 (fun w hw => (hg w hw).1)
      rw [if_neg (fun h => hne (List.length_eq_zero.mp h))]
      by_cases hfit : (dispWidth (unwords g) : Int) + 1 + (dispWidth word : Int) ≤ mw
      · rw [if_pos hfit]
        obtain ⟨gss, h1, h2, h3⟩ := ih gs (g ++ [word]) hrest hgs
          (by
            intro w hw
            rcases List.mem_append.mp hw with h | h
            · exact hg w h
            · rw [List.mem_singleton.mp h]; exact hword)
          (by
            rw [unwords_append_single g word hg0, dispWidth_space_sep]
            push_cast
            omega)
          (by
            simp only [List.length_append, List.length_singleton,
              List.length_cons, List.length_nil, List.length_map] at hcount ⊢
            push_cast at hcount ⊢
            omega)
        refine ⟨gss, ?_, ?_, h3⟩
        · rw [unwords_append_single g word hg0] at h1
          exact h1
        · rw [h2]
          simp
      · rw [if_neg hfit, truncate_eq_self _ _ hwid]
        by_cases hbrk : (((gs.map unwords ++ [unwords g]).length : Int) = m - 1)
        · rw [if_pos hbrk]
          have hrest0 : rest = [] := by
            have hlen := groups_length_le_join gs (fun grp hgrp => (hgs grp hgrp).1)
            have hg1 : 1 ≤ g.length := List.length_pos.mpr hg0
            simp only [List.length_append, List.length_map, List.length_singleton,
              List.length_cons, List.length_nil] at hbrk hcount
            push_cast at hbrk hcount
            have h0 : rest.length = 0 := by omega
            exact List.length_eq_zero.mp h0
          subst hrest0
          have happ0 : appendWords word [] = word := rfl
          rw [happ0, truncate_eq_self _ _ hword.2.2]
          refine ⟨[g, [word]], ?_, ?_, ?_⟩
          · have hmap : ((gs ++ [g, [word]]).map unwords) =
                gs.map unwords ++ [unwords g, unwords [word]] := by simp
            rw [hmap]
            have hw1 : unwords [word] = word := rfl
            rw [hw1]
            simp
          · simp
          · intro grp hgrp
            rcases List.mem_cons.mp hgrp with h | h
            · rw [h]; exact ⟨hg0, hg⟩
            · rw [List.mem_singleton.mp h]
              refine ⟨by simp, ?_⟩
              intro w hw
              rw [List.mem_singleton.mp hw]
              exact hword
        · rw [if_neg hbrk]
          obtain ⟨gss, h1, h2, h3⟩ := ih (gs ++ [g]) [word] hrest
            (by
              intro grp hgrp
              rcases List.mem_append.mp hgrp with h | h
              · exact hgs grp h
              · rw [List.mem_singleton.mp h]; exact ⟨hg0, hg⟩)
            (by intro w hw; rw [List.mem_singleton.mp hw]; exact hword)
            (by exact hword.2.2)
            (by
              have hfl : (gs ++ [g]).flatten = gs.flatten ++ g := by simp
              rw [hfl]
              simp only [List.length_append, List.length_singleton, List.length_map,
                List.length_cons, List.length_nil] at hcount ⊢
              push_cast at hcount ⊢
              omega)
          refine ⟨[g] ++ gss, ?_, ?_, ?_⟩
          · have hl : (gs ++ [g]).map unwords = gs.map unwords ++ [unwords g] := by
              simp
            rw [← hl, ← List.append_assoc]
            exact h1
          · have hfl : ([g] ++ gss).flatten = g ++ gss.flatten := by simp
            rw [hfl, h2]
            rfl
          · intro grp hgrp
            rcases List.mem_append.mp hgrp with h | h
            · rw [List.mem_singleton.mp h]; exact ⟨hg0, hg⟩
            · exact h3 grp h

/-- Counterexample to claim C7 as stated: with width budget 2 the single
word "abcdef" is ellipsis-truncated to "a...", so the words of the
output differ from the words of the input. -/
theorem wrapTitle_words_counterexample :
    fields (unwords (wrapTitle ("abcdef".toList) 2 2)) ≠
      fields ("abcdef".toList) := by
  decide

/-- Claim C7, amended: concatenating the lines returned by `wrapTitle`
with single spaces reproduces all original words in order, provided no
ellipsis truncation can occur: every word fits in the width budget and
the word count does not exceed the line limit (with at least 2 lines
allowed). -/
theorem wrapTitle_words_preserved (title : Str) (mw m : Int)
    (hwords : ∀ w ∈ fields title, (dispWidth w : Int) ≤ mw)
    (hcount : ((fields title).length : Int) ≤ m)
    (hm : 2 ≤ m) :
    fields (unwords (wrapTitle title mw m)) = fields title := by
  rw [wrapTitle]
  have hm1 : max m 1 = m := max_eq_left (by omega)
  simp only [hm1]
  by_cases hW : (dispWidth title : Int) ≤ mw
  · rw [if_pos (Or.inl hW), truncate_eq_self _ _ hW]
    rfl
  · rw [if_neg ?hcond]
    case hcond =>
      rintro (h | h)
      · exact hW h
      · omega
    by_cases hF : fields title = []
    · rw [hF]
      rfl
    · have hws : ∀ w ∈ fields title, GoodWord mw w := fun w hw =>
        ⟨(fields_good _ w hw).1, (fields_good _ w hw).2, hwords w hw⟩
      obtain ⟨w₀, hw₀⟩ := List.exists_mem_of_ne_nil _ hF
      have hmw0 : (0 : Int) ≤ mw :=
        le_trans (by positivity) (hwords w₀ hw₀)
      obtain ⟨gss, h1, h2, h3⟩ := wrapLoop_groups mw m (fields title) [] []
        hws (by simp) (by simp)
        (by
          have hz : dispWidth (unwords ([] : List Str)) = 0 := rfl
          rw [hz]
          exact_mod_cast hmw0)
        (by
          simp only [List.flatten_nil, List.length_nil]
          push_cast
          omega)
      have hA : (List.map unwords ([] : List (List Str))) = [] := rfl
      have hB : unwords ([] : List Str) = [] := rfl
      rw [hA, hB, List.nil_append] at h1
      rw [List.nil_append] at h2
      rw [h1, unwords_map_join gss (fun grp hgrp => (h3 grp hgrp).1), h2]
      exact fields_unwords_eq _ (fun w hw => fields_good _ w hw)

/-- Witness for the amended C7 at a concrete input: "hello world" wrapped
at width 5 with 2 lines allowed keeps both words. -/
theorem wrapTitle_words_preserved_witness :
    fields (unwords (wrapTitle ("hello world".toList) 5 2)) =
      fields ("hello world".toList) :=
  wrapTitle_words_preserved ("hello world".toList) 5 2
    (by decide) (by decide) (by norm_num)

theorem one_le_fitCardsInHeight (seqMap : List (Int × Nat))
    (tasks : List Task) (scrollOff : Nat) (avail width : Int) :
    1 ≤ fitCardsInHeight seqMap tasks scrollOff avail width := by
  simp only [fitCardsInHeight]
  split_ifs <;> omega

/-- Claim C2: for every non-empty column, every scroll offset, width and
terminal height, the visible-card count is at least 1 — even when the
first card alone overflows the entire budget. -/
theorem visibleCards_pos (seqMap : List (Int × Nat)) (tasks : List Task)
    (scrollOff : Nat) (width height : Int) (hasErr : Bool)
    (_hne : tasks ≠ []) :
    1 ≤ visibleCardsForColumn seqMap tasks scrollOff width height hasErr := by
  simp only [visibleCardsForColumn]
  split_ifs <;> first
    | omega
    | exact one_le_fitCardsInHeight _ _ _ _ _

/-- Witness for C2 at a concrete input whose single card is taller than
the whole terminal: the count is still 1. -/
theorem visibleCards_pos_witness :
    ([plainTask 1 ("a".toList) ("one two three four five six seven".toList)] :
        List Task) ≠ [] ∧
    1 ≤ visibleCardsForColumn []
      [plainTask 1 ("a".toList) ("one two three four five six seven".toList)]
      0 10 5 false :=
  ⟨by decide,
   visibleCards_pos []
     [plainTask 1 ("a".toList) ("one two three four five six seven".toList)]
     0 10 5 false (by decide)⟩

theorem fitGo_ge (seqMap : List (Int × Nat)) (width avail : Int) :
    ∀ (ts : List Task) (used : Int) (count : Nat),
      count ≤ fitGo seqMap width avail ts used count := by
  intro ts
  induction ts with
  | nil => intro used count; exact le_rfl
  | cons t rest ih =>
    intro used count
    rw [fitGo]
    split_ifs with h1 h2
    · exact le_rfl
    · omega
    · exact le_trans (by omega) (ih (used + (cardHeight seqMap t width : Int))
        (count + 1))

theorem fitGo_sum (seqMap : List (Int × Nat)) (width avail : Int) :
    ∀ (ts : List Task) (used : Int) (count : Nat),
      (1 ≤ count → used ≤ avail) →
      2 ≤ fitGo seqMap width avail ts used count →
      used + ((ts.take (fitGo seqMap width avail ts used count - count)).map
        (fun t => (cardHeight seqMap t width : Int))).sum ≤ avail := by
  intro ts
  induction ts with
  | nil =>
    intro used count hinv h2
    rw [fitGo] at h2 ⊢
    simp only [Nat.sub_self, List.take_zero, List.map_nil, List.sum_nil,
      add_zero]
    exact hinv (by omega)
  | cons t rest ih =>
    intro used count hinv h2
    rw [fitGo] at h2 ⊢
    split_ifs at h2 ⊢ with h1 hge
    · simp only [Nat.sub_self, List.take_zero, List.map_nil, List.sum_nil,
        add_zero]
      exact hinv (by omega)
    · have hc1 : 1 ≤ count := by omega
      have hle : used + (cardHeight seqMap t width : Int) ≤ avail := by
        rcases not_and_or.mp h1 with h | h
        · omega
        · omega
      simp only [Nat.add_sub_cancel_left]
      have htake : (t :: rest).take 1 = [t] := rfl
      rw [htake]
      simpa using hle
    · have hrec := ih (used + (cardHeight seqMap t width : Int)) (count + 1)
        (fun _ => by omega) h2
      have hge2 := fitGo_ge seqMap width avail rest
        (used + (cardHeight seqMap t width : Int)) (count + 1)
      have htake : (t :: rest).take
          (fitGo seqMap width avail rest
            (used + (cardHeight seqMap t width : Int)) (count + 1) - count) =
          t :: rest.take
            (fitGo seqMap width avail rest
              (used + (cardHeight seqMap t width : Int)) (count + 1) -
              (count + 1)) := by
        have : fitGo seqMap width avail rest
            (used + (cardHeight seqMap t width : Int)) (count + 1) - count =
            (fitGo seqMap width avail rest
              (used + (cardHeight seqMap t width : Int)) (count + 1) -
              (count + 1)) + 1 := by omega
        rw [this, List.take_succ_cons]
      rw [htake]
      simp only [List.map_cons, List.sum_cons]
      omega

theorem fitCards_sum (seqMap : List (Int × Nat)) (tasks : List Task)
    (scrollOff : Nat) (avail width : Int)
    (h2 : 2 ≤ fitCardsInHeight seqMap tasks scrollOff avail width) :
    (((tasks.drop scrollOff).take
        (fitCardsInHeight seqMap tasks scrollOff avail width)).map
      (fun t => (cardHeight seqMap t width : Int))).sum ≤ avail := by
  simp only [fitCardsInHeight] at h2 ⊢
  split_ifs at h2 ⊢ with ha hb hc
  · omega
  · omega
  · omega
  · have := fitGo_sum seqMap width avail (tasks.drop scrollOff) 0 0
      (by omega) h2
    simpa using this

/-- Claim C3: whenever at least two cards are reported visible, the
accumulated card heights of the visible range plus the header line and
any needed up/down indicator lines fit within the budget
(`terminalHeight - chrome`); only the always-included single first card
may overflow. -/
theorem visibleCardsForColumn_eq (seqMap : List (Int × Nat))
    (tasks : List Task) (scrollOff : Nat) (width height : Int)
    (hasErr : Bool) :
    visibleCardsForColumn seqMap tasks scrollOff width height hasErr =
      (if height - (chromeHeight hasErr : Int) < 1 then 1
       else
        if scrollOff + fitCardsInHeight seqMap tasks scrollOff
            (if 0 < scrollOff then height - (chromeHeight hasErr : Int) - 1 - 1
             else height - (chromeHeight hasErr : Int) - 1) width <
            tasks.length
        then
          (if fitCardsInHeight seqMap tasks scrollOff
              ((if 0 < scrollOff then
                  height - (chromeHeight hasErr : Int) - 1 - 1
                else height - (chromeHeight hasErr : Int) - 1) - 1) width < 1
           then 1
           else fitCardsInHeight seqMap tasks scrollOff
              ((if 0 < scrollOff then
                  height - (chromeHeight hasErr : Int) - 1 - 1
                else height - (chromeHeight hasErr : Int) - 1) - 1) width)
        else fitCardsInHeight seqMap tasks scrollOff
            (if 0 < scrollOff then height - (chromeHeight hasErr : Int) - 1 - 1
             else height - (chromeHeight hasErr : Int) - 1) width) := rfl

theorem visibleCards_range_fits (seqMap : List (Int × Nat))
    (tasks : List Task) (scrollOff : Nat) (width height : Int)
    (hasErr : Bool)
    (h2 : 2 ≤ visibleCardsForColumn seqMap tasks scrollOff width height hasErr) :
    (((tasks.drop scrollOff).take
        (visibleCardsForColumn seqMap tasks scrollOff width height hasErr)).map
      (fun t => (cardHeight seqMap t width : Int))).sum
      + 1
      + (if 0 < scrollOff then 1 else 0)
      + (if scrollOff +
            visibleCardsForColumn seqMap tasks scrollOff width height hasErr <
            tasks.length then 1 else 0)
      ≤ height - (chromeHeight hasErr : Int) := by
  rw [visibleCardsForColumn_eq] at h2 ⊢
  set A : Int :=
    (if 0 < scrollOff then height - (chromeHeight hasErr : Int) - 1 - 1
     else height - (chromeHeight hasErr : Int) - 1) with hA
  have hcases :
      (0 < scrollOff ∧ A = height - (chromeHeight hasErr : Int) - 2) ∨
      (¬ 0 < scrollOff ∧ A = height - (chromeHeight hasErr : Int) - 1) := by
    rw [hA]
    by_cases h : 0 < scrollOff
    · exact Or.inl ⟨h, by rw [if_pos h]; ring⟩
    · exact Or.inr ⟨h, by rw [if_neg h]⟩
  by_cases hbud : height - (chromeHeight hasErr : Int) < 1
  · rw [if_pos hbud] at h2
    omega
  · rw [if_neg hbud] at h2 ⊢
    by_cases hdown :
        scrollOff + fitCardsInHeight seqMap tasks scrollOff A width <
          tasks.length
    · rw [if_pos hdown] at h2 ⊢
      by_cases hclamp :
          fitCardsInHeight seqMap tasks scrollOff (A - 1) width < 1
      · rw [if_pos hclamp] at h2
        omega
      · rw [if_neg hclamp] at h2 ⊢
        have hsum := fitCards_sum seqMap tasks scrollOff (A - 1) width h2
        rcases hcases with ⟨hup, hAeq⟩ | ⟨hup, hAeq⟩ <;> split_ifs <;> omega
    · rw [if_neg hdown] at h2 ⊢
      have hsum := fitCards_sum seqMap tasks scrollOff A width h2
      rcases hcases with ⟨hup, hAeq⟩ | ⟨hup, hAeq⟩ <;> split_ifs <;> omega

/-- Witness for C3 at a concrete input: four height-3 cards in a height-12
terminal show 2 cards, and the visible heights plus header and down
indicator fit the budget. -/
theorem visibleCards_range_fits_witness :
    2 ≤ visibleCardsForColumn [] fourTasks 0 20 12 false ∧
    (((fourTasks.drop 0).take
        (visibleCardsForColumn [] fourTasks 0 20 12 false)).map
      (fun t => (cardHeight [] t 20 : Int))).sum
      + 1
      + (if 0 < (0 : Nat) then 1 else 0)
      + (if 0 + visibleCardsForColumn [] fourTasks 0 20 12 false <
            fourTasks.length then 1 else 0)
      ≤ 12 - (chromeHeight false : Int) :=
  ⟨by decide, visibleCards_range_fits [] fourTasks 0 20 12 false (by decide)⟩

theorem one_le_visibleCards (seqMap : List (Int × Nat)) (tasks : List Task)
    (scrollOff : Nat) (width height : Int) (hasErr : Bool) :
    1 ≤ visibleCardsForColumn seqMap tasks scrollOff width height hasErr := by
  simp only [visibleCardsForColumn]
  split_ifs <;> first
    | omega
    | exact one_le_fitCardsInHeight _ _ _ _ _

theorem ensureVisibleGo_fix (seqMap : List (Int × Nat)) (tasks : List Task)
    (width height : Int) (hasErr : Bool) (a : Nat) :
    ∀ (fuel s : Nat), s ≤ a → a + 1 - s ≤ fuel →
      ensureVisibleGo seqMap tasks width height hasErr a fuel s ≤ a ∧
      a < ensureVisibleGo seqMap tasks width height hasErr a fuel s +
        visibleCardsForColumn seqMap tasks
          (ensureVisibleGo seqMap tasks width height hasErr a fuel s)
          width height hasErr := by
  intro fuel
  induction fuel with
  | zero => intro s hs hf; omega
  | succ fuel ih =>
    intro s hs hf
    simp only [ensureVisibleGo]
    by_cases h1 :
        s + visibleCardsForColumn seqMap tasks s width height hasErr ≤ a
    · rw [if_pos h1]
      have hV1 : 1 ≤ visibleCardsForColumn seqMap tasks s width height hasErr :=
        one_le_visibleCards seqMap tasks s width height hasErr
      exact ih (a - visibleCardsForColumn seqMap tasks s width height hasErr + 1)
        (by omega) (by omega)
    · rw [if_neg h1, if_neg (by omega : ¬ a < s)]
      exact ⟨hs, by omega⟩

theorem ensureVisibleOff_fix (seqMap : List (Int × Nat))
    (tasks : List Task) (width height : Int) (hasErr : Bool)
    (activeRow scrollOff : Nat)
    (hne : tasks ≠ []) (hrow : activeRow < tasks.length) :
    ensureVisibleOff seqMap tasks width height hasErr activeRow scrollOff ≤
      activeRow ∧
    activeRow <
      ensureVisibleOff seqMap tasks width height hasErr activeRow scrollOff +
      visibleCardsForColumn seqMap tasks
        (ensureVisibleOff seqMap tasks width height hasErr activeRow scrollOff)
        width height hasErr := by
  have hlen : 1 ≤ tasks.length := List.length_pos.mpr hne
  rw [ensureVisibleOff]
  by_cases hcase : scrollOff ≤ activeRow
  · exact ensureVisibleGo_fix seqMap tasks width height hasErr activeRow
      (tasks.length + 1) scrollOff hcase (by omega)
  · simp only [ensureVisibleGo]
    have hV1 : 1 ≤ visibleCardsForColumn seqMap tasks scrollOff width height hasErr :=
      one_le_visibleCards seqMap tasks scrollOff width height hasErr
    rw [if_neg (by omega), if_pos (by omega)]
    exact ensureVisibleGo_fix seqMap tasks width height hasErr activeRow
      tasks.length activeRow le_rfl (by omega)

/-- Claim C1: for every non-empty column and valid active row, the
scroll offset produced by the `ensureVisible` loop (run for its
`len(tasks)+1` iterations) is a fixed point: the active row lies inside
the visible window computed from the final offset. -/
theorem ensureVisible_fixed_point (seqMap : List (Int × Nat))
    (tasks : List Task) (width height : Int) (hasErr : Bool)
    (activeRow scrollOff : Nat)
    (hne : tasks ≠ []) (hrow : activeRow < tasks.length) :
    ensureVisibleOff seqMap tasks width height hasErr activeRow scrollOff ≤
      activeRow ∧
    activeRow <
      ensureVisibleOff seqMap tasks width height hasErr activeRow scrollOff +
      visibleCardsForColumn seqMap tasks
        (ensureVisibleOff seqMap tasks width height hasErr activeRow scrollOff)
        width height hasErr :=
  ensureVisibleOff_fix seqMap tasks width height hasErr activeRow scrollOff
    hne hrow

/-- Witness for C1 at a concrete input: four cards, terminal height 12,
cursor on row 3 starting from offset 0 — the loop lands on offset 2 and
rows 2..3 are visible. -/
theorem ensureVisible_fixed_point_witness :
    (fourTasks ≠ [] ∧ 3 < fourTasks.length) ∧
    (ensureVisibleOff [] fourTasks 20 12 false 3 0 ≤ 3 ∧
      3 < ensureVisibleOff [] fourTasks 20 12 false 3 0 +
        visibleCardsForColumn [] fourTasks
          (ensureVisibleOff [] fourTasks 20 12 false 3 0) 20 12 false) :=
  ⟨⟨by decide, by decide⟩,
   ensureVisible_fixed_point [] fourTasks 20 12 false 3 0
     (by decide) (by decide)⟩

/-- Counterexample to claim C4 as stated: reloading the very same task
list resets the scrolled non-active column's offset from 1 to 0 even
though the column's tasks are unchanged (nothing was invalidated), so
scroll offsets are not preserved across reloads. -/
theorem loadTasks_scrolloff_counterexample :
    (loadTasks boardScrolled (Except.ok tasksThree)).columns.map
        Column.scrollOff ≠
      boardScrolled.columns.map Column.scrollOff ∧
    (loadTasks boardScrolled (Except.ok tasksThree)).columns.map Column.tasks =
      boardScrolled.columns.map Column.tasks := by
  decide

theorem addToFirstMatching_scrollOff (t : Task) :
    ∀ cols : List Column, (∀ c ∈ cols, c.scrollOff = 0) →
      ∀ c ∈ addToFirstMatching t cols, c.scrollOff = 0 := by
  intro cols
  induction cols with
  | nil =>
    intro h c hc
    simp [addToFirstMatching] at hc
  | cons c₀ cs ih =>
    intro h c hc
    rw [addToFirstMatching] at hc
    by_cases hs : c₀.status = t.status
    · rw [if_pos hs] at hc
      rcases List.mem_cons.mp hc with h1 | h2
      · rw [h1]
        exact h c₀ (by simp)
      · exact h c (by simp [h2])
    · rw [if_neg hs] at hc
      rcases List.mem_cons.mp hc with h1 | h2
      · rw [h1]
        exact h c₀ (by simp)
      · exact ih (fun d hd => h d (by simp [hd])) c h2

theorem foldl_addToFirst_scrollOff (ts : List Task) :
    ∀ cols, (∀ c ∈ cols, c.scrollOff = 0) →
      ∀ c ∈ ts.foldl (fun cols t => addToFirstMatching t cols) cols,
        c.scrollOff = 0 := by
  induction ts with
  | nil => intro cols h c hc; exact h c hc
  | cons t rest ih =>
    intro cols h c hc
    rw [List.foldl_cons] at hc
    exact ih _ (addToFirstMatching_scrollOff t cols h) c hc

theorem buildColumns_scrollOff (sts : List Str) (ts : List Task) :
    ∀ c ∈ buildColumns sts ts, c.scrollOff = 0 := by
  intro c hc
  refine foldl_addToFirst_scrollOff ts _ ?_ c hc
  intro d hd
  obtain ⟨st, _, rfl⟩ := List.mem_map.mp hd
  rfl

theorem ensureVisible_components (b : Board) (col : Column)
    (hcol : b.columns[b.activeCol]? = some col) :
    (Board.ensureVisible b).columns =
      b.columns.set b.activeCol
        ({ col with scrollOff := (ensureVisibleOff b.titleSeq col.tasks
            (columnWidth b) b.height b.err.isSome b.activeRow
            col.scrollOff) }) ∧
    (Board.ensureVisible b).activeRow = b.activeRow ∧
    (Board.ensureVisible b).activeCol = b.activeCol ∧
    (Board.ensureVisible b).view = b.view ∧
    (Board.ensureVisible b).err = b.err ∧
    (Board.ensureVisible b).tasks = b.tasks := by
  refine ⟨?_, ?_, ?_, ?_, ?_, ?_⟩ <;> simp only [Board.ensureVisible, hcol]

theorem clampRow_state (b : Board)
    (hoff : ∀ c ∈ b.columns, c.scrollOff = 0) :
    (Board.clampRow b).view = b.view ∧
    (Board.clampRow b).activeCol = b.activeCol ∧
    (Board.clampRow b).err = b.err ∧
    (Board.clampRow b).tasks = b.tasks ∧
    (∀ i, i ≠ b.activeCol →
      ∀ c, (Board.clampRow b).columns[i]? = some c → c.scrollOff = 0) ∧
    (∀ c, (Board.clampRow b).columns[b.activeCol]? = some c →
      (c.tasks.length = 0 → (Board.clampRow b).activeRow = 0) ∧
      (0 < c.tasks.length →
        (Board.clampRow b).activeRow = min b.activeRow (c.tasks.length - 1) ∧
        c.scrollOff ≤ (Board.clampRow b).activeRow)) ∧
    ((Board.clampRow b).columns[b.activeCol]? = none →
      (Board.clampRow b).activeRow = 0) := by
  rcases hcol : b.columns[b.activeCol]? with _ | col
  · have hred : Board.clampRow b = { b with activeRow := 0 } := by
      simp only [Board.clampRow, hcol]
    rw [hred]
    refine ⟨rfl, rfl, rfl, rfl, ?_, ?_, fun _ => rfl⟩
    · intro i _ c hc
      have hc₂ : b.columns[i]? = some c := hc
      exact hoff c (List.getElem?_mem hc₂)
    · intro c hc
      have hc₂ : b.columns[b.activeCol]? = some c := hc
      rw [hcol] at hc₂
      cases hc₂
  · by_cases hz : col.tasks.length = 0
    · have hred : Board.clampRow b = { b with activeRow := 0 } := by
        simp only [Board.clampRow, hcol]
        rw [if_pos hz]
      rw [hred]
      refine ⟨rfl, rfl, rfl, rfl, ?_, ?_, fun _ => rfl⟩
      · intro i _ c hc
        have hc₂ : b.columns[i]? = some c := hc
        exact hoff c (List.getElem?_mem hc₂)
      · intro c hc
        have hc₂ : b.columns[b.activeCol]? = some c := hc
        rw [hcol] at hc₂
        injection hc₂ with hc₂
        rw [← hc₂]
        exact ⟨fun _ => rfl, fun hpos => absurd hz (by omega)⟩
    · have hlen : 0 < col.tasks.length := Nat.pos_of_ne_zero hz
      have hidx : b.activeCol < b.columns.length := by
        rcases List.getElem?_eq_some.mp hcol with ⟨h, _⟩
        exact h
      have hne : col.tasks ≠ [] := by
        intro h
        rw [h] at hlen
        simp at hlen
      have key : ∀ (b₂ : Board), b₂.columns = b.columns →
          b₂.activeCol = b.activeCol →
          b₂.view = b.view → b₂.err = b.err → b₂.tasks = b.tasks →
          b₂.activeRow = min b.activeRow (col.tasks.length - 1) →
          (Board.ensureVisible b₂).view = b.view ∧
          (Board.ensureVisible b₂).activeCol = b.activeCol ∧
          (Board.ensureVisible b₂).err = b.err ∧
          (Board.ensureVisible b₂).tasks = b.tasks ∧
          (∀ i, i ≠ b.activeCol →
            ∀ c, (Board.ensureVisible b₂).columns[i]? = some c →
              c.scrollOff = 0) ∧
          (∀ c, (Board.ensureVisible b₂).columns[b.activeCol]? = some c →
            (c.tasks.length = 0 → (Board.ensureVisible b₂).activeRow = 0) ∧
            (0 < c.tasks.length →
              (Board.ensureVisible b₂).activeRow =
                min b.activeRow (c.tasks.length - 1) ∧
              c.scrollOff ≤ (Board.ensureVisible b₂).activeRow)) ∧
          ((Board.ensureVisible b₂).columns[b.activeCol]? = none →
            (Board.ensureVisible b₂).activeRow = 0) := by
        intro b₂ hcols hac hview herr htasks hrow
        have hcol₂ : b₂.columns[b₂.activeCol]? = some col := by
          rw [hcols, hac]
          exact hcol
        obtain ⟨hCols, hRow, hAc, hView, hErr, hTasks⟩ :=
          ensureVisible_components b₂ col hcol₂
        have hrowlt : b₂.activeRow < col.tasks.length := by
          rw [hrow]
          omega
        have hfix := ensureVisibleOff_fix b₂.titleSeq col.tasks (columnWidth b₂)
          b₂.height b₂.err.isSome b₂.activeRow col.scrollOff hne hrowlt
        refine ⟨by rw [hView, hview], by rw [hAc, hac], by rw [hErr, herr],
          by rw [hTasks, htasks], ?_, ?_, ?_⟩
        · intro i hi c hc
          rw [hCols] at hc
          rw [List.getElem?_set_ne (by rw [hac]; exact fun h => hi h.symm)] at hc
          rw [hcols] at hc
          exact hoff c (List.getElem?_mem hc)
        · intro c hc
          rw [hCols, ← hac] at hc
          rw [List.getElem?_set_self (by rw [hcols, hac]; exact hidx)] at hc
          injection hc with hc
          rw [← hc]
          refine ⟨fun h0 => absurd h0 hz, fun _ => ⟨by rw [hRow, hrow], ?_⟩⟩
          rw [hRow]
          exact hfix.1
        · intro hnone
          rw [hCols, ← hac] at hnone
          rw [List.getElem?_set_self (by rw [hcols, hac]; exact hidx)] at hnone
          cases hnone
      by_cases hcl : col.tasks.length ≤ b.activeRow
      · have hred : Board.clampRow b =
            Board.ensureVisible { b with activeRow := col.tasks.length - 1 } := by
          simp only [Board.clampRow, hcol]
          rw [if_neg hz, if_pos hcl]
        rw [hred]
        exact key { b with activeRow := col.tasks.length - 1 }
          rfl rfl rfl rfl rfl (by simp; omega)
      · have hred : Board.clampRow b = Board.ensureVisible b := by
          simp only [Board.clampRow, hcol]
          rw [if_neg hz, if_neg hcl]
        rw [hred]
        exact key b rfl rfl rfl rfl rfl (by simp; omega)

/-- Claim C4, amended: a successful reload preserves the view mode and
the active column, clears the error, and clamps the active row into the
new active column (resetting it to 0 when the column is missing or
empty); but scroll offsets are NOT preserved — every non-active column's
offset is reset to 0, and the active column's offset is re-derived by
`ensureVisible` (in particular it never exceeds the clamped row). -/
theorem loadTasks_ok_state (b : Board) (ts : List Task) :
    (loadTasks b (Except.ok ts)).view = b.view ∧
    (loadTasks b (Except.ok ts)).activeCol = b.activeCol ∧
    (loadTasks b (Except.ok ts)).err = none ∧
    (∀ i, i ≠ b.activeCol →
      ∀ c, (loadTasks b (Except.ok ts)).columns[i]? = some c →
        c.scrollOff = 0) ∧
    (∀ c, (loadTasks b (Except.ok ts)).columns[b.activeCol]? = some c →
      (c.tasks.length = 0 → (loadTasks b (Except.ok ts)).activeRow = 0) ∧
      (0 < c.tasks.length →
        (loadTasks b (Except.ok ts)).activeRow =
          min b.activeRow (c.tasks.length - 1) ∧
        c.scrollOff ≤ (loadTasks b (Except.ok ts)).activeRow)) ∧
    ((loadTasks b (Except.ok ts)).columns[b.activeCol]? = none →
      (loadTasks b (Except.ok ts)).activeRow = 0) := by
  have hred : loadTasks b (Except.ok ts) =
      Board.clampRow
        { b with
            err := none
            tasks := (boardSortPriorityRev b.cfg
              (ts.filter (fun t => ¬ isArchivedStatus b.cfg t.status)))
            columns := (buildColumns (boardStatuses b.cfg)
              (boardSortPriorityRev b.cfg
                (ts.filter (fun t => ¬ isArchivedStatus b.cfg t.status))))
            titleSeq := (buildTitleSeq
              (((buildColumns (boardStatuses b.cfg)
                  (boardSortPriorityRev b.cfg
                    (ts.filter
                      (fun t => ¬ isArchivedStatus b.cfg t.status)))).map
                Column.tasks).flatten)) } := by
    simp only [loadTasks]
  rw [hred]
  obtain ⟨h1, h2, h3, _h4, h5, h6, h7⟩ := clampRow_state
    { b with
        err := none
        tasks := (boardSortPriorityRev b.cfg
          (ts.filter (fun t => ¬ isArchivedStatus b.cfg t.status)))
        columns := (buildColumns (boardStatuses b.cfg)
          (boardSortPriorityRev b.cfg
            (ts.filter (fun t => ¬ isArchivedStatus b.cfg t.status))))
        titleSeq := (buildTitleSeq
          (((buildColumns (boardStatuses b.cfg)
              (boardSortPriorityRev b.cfg
                (ts.filter
                  (fun t => ¬ isArchivedStatus b.cfg t.status)))).map
            Column.tasks).flatten)) }
    (fun c hc => buildColumns_scrollOff _ _ c hc)
  exact ⟨h1, h2, h3, h5, h6, h7⟩

/-- Witness for the amended C4 at a concrete input: reloading the
scrolled two-column board keeps the view and resets the non-active
column's offset to 0. -/
theorem loadTasks_ok_state_witness :
    (loadTasks boardScrolled (Except.ok tasksThree)).view =
      boardScrolled.view ∧
    ∃ c, (loadTasks boardScrolled (Except.ok tasksThree)).columns[1]? =
        some c ∧ c.scrollOff = 0 := by
  refine ⟨(loadTasks_ok_state boardScrolled tasksThree).1, ?_⟩
  have h := (loadTasks_ok_state boardScrolled tasksThree).2.2.2.1 1 (by decide)
  rcases hc : (loadTasks boardScrolled (Except.ok tasksThree)).columns[1]?
    with _ | c
  · exact absurd hc (by decide)
  · exact ⟨c, rfl, h c hc⟩

theorem ensureVisible_err (b : Board) :
    (Board.ensureVisible b).err = b.err := by
  rcases hcol : b.columns[b.activeCol]? with _ | col <;>
    simp only [Board.ensureVisible, hcol]

theorem clampRow_err (b : Board) : (Board.clampRow b).err = b.err := by
  rcases hcol : b.columns[b.activeCol]? with _ | col
  · simp only [Board.clampRow, hcol]
  · simp only [Board.clampRow, hcol]
    split_ifs <;> first | rfl | rw [ensureVisible_err]

/-- Claim C8: reload is all-or-nothing with the error as board state — a
failed read sets only the error field and leaves everything else (tasks,
columns, cursor, view) untouched; a successful read clears the error;
the reload handler never returns a quit command; and a present error is
rendered as a single banner line above the ordinary status line. -/
theorem loadTasks_error_banner (b : Board) (e : Str) (ts : List Task) :
    loadTasks b (Except.error e) = { b with err := some e } ∧
    (loadTasks b (Except.ok ts)).err = none ∧
    (updateReload b (Except.error e)).2 = Cmd.none ∧
    (∀ bb : Board, bb.err = some e →
      renderStatusBar bb =
        truncate (("Error: ".toList) ++ e) bb.width ++ '\n' ::
          renderStatusBar { bb with err := none }) := by
  refine ⟨rfl, ?_, rfl, ?_⟩
  · simp only [loadTasks]
    rw [clampRow_err]
  · intro bb hbb
    simp only [renderStatusBar, hbb]

/-- Witness for C8 at a concrete input: a board with an error renders the
banner line in front of the plain status line. -/
theorem loadTasks_error_banner_witness :
    renderStatusBar { boardInit with err := some ("boom".toList) } =
      truncate (("Error: ".toList) ++ ("boom".toList))
        ({ boardInit with err := some ("boom".toList) } : Board).width ++
        '\n' :: renderStatusBar
          { { boardInit with err := some ("boom".toList) } with err := none } :=
  (loadTasks_error_banner boardInit ("boom".toList) []).2.2.2
    { boardInit with err := some ("boom".toList) } rfl

theorem mem_insertStable (lt : Task → Task → Bool) (x a : Task) :
    ∀ l, a ∈ insertStable lt x l ↔ a = x ∨ a ∈ l := by
  intro l
  induction l with
  | nil => simp [insertStable]
  | cons y ys ih =>
    rw [insertStable]
    by_cases h : lt x y
    · rw [if_pos h]
      simp [List.mem_cons]
    · rw [if_neg h]
      simp only [List.mem_cons, ih]
      tauto

theorem mem_sortTasksBy (lt : Task → Task → Bool) (a : Task) :
    ∀ l, a ∈ sortTasksBy lt l ↔ a ∈ l := by
  intro l
  induction l with
  | nil => simp [sortTasksBy]
  | cons y ys ih =>
    rw [sortTasksBy, mem_insertStable]
    simp only [List.mem_cons, ih]

theorem addToFirstMatching_inv (t : Task) :
    ∀ cols : List Column,
      (∀ c ∈ cols, ∀ u ∈ c.tasks, u.status = c.status) →
      ∀ c ∈ addToFirstMatching t cols, ∀ u ∈ c.tasks, u.status = c.status := by
  intro cols
  induction cols with
  | nil => intro _ c hc; simp [addToFirstMatching] at hc
  | cons c₀ cs ih =>
    intro h c hc
    rw [addToFirstMatching] at hc
    by_cases hs : c₀.status = t.status
    · rw [if_pos hs] at hc
      rcases List.mem_cons.mp hc with h1 | h2
      · rw [h1]
        intro u hu
        rcases List.mem_append.mp hu with h3 | h4
        · exact h c₀ (by simp) u h3
        · rw [List.mem_singleton.mp h4, hs.symm]
      · exact h c (by simp [h2])
    · rw [if_neg hs] at hc
      rcases List.mem_cons.mp hc with h1 | h2
      · rw [h1]
        exact h c₀ (by simp)
      · exact ih (fun d hd => h d (by simp [hd])) c h2

theorem addToFirstMatching_statuses (t : Task) :
    ∀ cols : List Column,
      (addToFirstMatching t cols).map Column.status = cols.map Column.status := by
  intro cols
  induction cols with
  | nil => rfl
  | cons c₀ cs ih =>
    rw [addToFirstMatching]
    by_cases hs : c₀.status = t.status
    · rw [if_pos hs]
      simp
    · rw [if_neg hs]
      simp [ih]

theorem foldl_addToFirst_inv (ts : List Task) :
    ∀ cols,
      (∀ c ∈ cols, ∀ u ∈ c.tasks, u.status = c.status) →
      (∀ c ∈ ts.foldl (fun cols t => addToFirstMatching t cols) cols,
        ∀ u ∈ c.tasks, u.status = c.status) := by
  induction ts with
  | nil => intro cols h; exact h
  | cons t rest ih =>
    intro cols h
    rw [List.foldl_cons]
    exact ih _ (addToFirstMatching_inv t cols h)

theorem foldl_addToFirst_statuses (ts : List Task) :
    ∀ cols,
      (ts.foldl (fun cols t => addToFirstMatching t cols) cols).map
        Column.status = cols.map Column.status := by
  induction ts with
  | nil => intro cols; rfl
  | cons t rest ih =>
    intro cols
    rw [List.foldl_cons, ih, addToFirstMatching_statuses]

theorem buildColumns_inv (sts : List Str) (ts : List Task) :
    ∀ c ∈ buildColumns sts ts,
      c.status ∈ sts ∧ ∀ u ∈ c.tasks, u.status = c.status := by
  intro c hc
  constructor
  · have hmap := foldl_addToFirst_statuses ts
      (sts.map (fun st => { status := st, tasks := [], scrollOff := 0 }))
    have hthis : c.status ∈ (buildColumns sts ts).map Column.status :=
      List.mem_map_of_mem _ hc
    rw [buildColumns] at hthis
    rw [hmap] at hthis
    simp only [List.map_map] at hthis
    simpa using hthis
  · refine foldl_addToFirst_inv ts _ ?_ c hc
    intro d hd
    obtain ⟨st, _, rfl⟩ := List.mem_map.mp hd
    intro u hu
    simp at hu

theorem ensureVisible_tasks (b : Board) :
    (Board.ensureVisible b).tasks = b.tasks := by
  rcases hcol : b.columns[b.activeCol]? with _ | col <;>
    simp only [Board.ensureVisible, hcol]

theorem clampRow_tasks (b : Board) : (Board.clampRow b).tasks = b.tasks := by
  rcases hcol : b.columns[b.activeCol]? with _ | col
  · simp only [Board.clampRow, hcol]
  · simp only [Board.clampRow, hcol]
    split_ifs <;> first | rfl | rw [ensureVisible_tasks]

theorem clampRow_columns_shape (b : Board) :
    ∀ c ∈ (Board.clampRow b).columns,
      ∃ c₀ ∈ b.columns, c.tasks = c₀.tasks ∧ c.status = c₀.status := by
  rcases hcol : b.columns[b.activeCol]? with _ | col
  · simp only [Board.clampRow, hcol]
    intro c hc
    exact ⟨c, hc, rfl, rfl⟩
  · by_cases hz : col.tasks.length = 0
    · have hred : Board.clampRow b = { b with activeRow := 0 } := by
        simp only [Board.clampRow, hcol]
        rw [if_pos hz]
      rw [hred]
      intro c hc
      exact ⟨c, hc, rfl, rfl⟩
    · have hmem : col ∈ b.columns := List.getElem?_mem hcol
      have key : ∀ (b₂ : Board), b₂.columns = b.columns →
          ∀ c ∈ (Board.ensureVisible b₂).columns,
            ∃ c₀ ∈ b.columns, c.tasks = c₀.tasks ∧ c.status = c₀.status := by
        intro b₂ hcols c hc
        rcases hcol₂ : b₂.columns[b₂.activeCol]? with _ | col₂
        · rw [Board.ensureVisible, hcol₂] at hc
          rw [hcols] at hc
          exact ⟨c, hc, rfl, rfl⟩
        · rw [Board.ensureVisible, hcol₂] at hc
          simp only at hc
          rcases List.mem_or_eq_of_mem_set hc with h1 | h2
          · rw [hcols] at h1
            exact ⟨c, h1, rfl, rfl⟩
          · have hmem₂ : col₂ ∈ b.columns := by
              rw [← hcols]
              exact List.getElem?_mem hcol₂
            rw [h2]
            exact ⟨col₂, hmem₂, rfl, rfl⟩
      by_cases hcl : col.tasks.length ≤ b.activeRow
      · have hred : Board.clampRow b =
            Board.ensureVisible { b with activeRow := col.tasks.length - 1 } := by
          simp only [Board.clampRow, hcol]
          rw [if_neg hz, if_pos hcl]
        rw [hred]
        exact key { b with activeRow := col.tasks.length - 1 } rfl
      · have hred : Board.clampRow b = Board.ensureVisible b := by
          simp only [Board.clampRow, hcol]
          rw [if_neg hz, if_neg hcl]
        rw [hred]
        exact key b rfl

theorem selectedTask_mem (b : Board) (t : Task)
    (h : selectedTask b = some t) : ∃ col ∈ b.columns, t ∈ col.tasks := by
  rw [selectedTask] at h
  rcases hcol : b.columns[b.activeCol]? with _ | col
  · rw [hcol] at h
    cases h
  · rw [hcol] at h
    have h₂ : (if col.tasks.length = 0 then none
        else
          match col.tasks[b.activeRow]? with
          | some u => some u
          | none => none) = some t := h
    by_cases hz : col.tasks.length = 0
    · rw [if_pos hz] at h₂
      cases h₂
    · rw [if_neg hz] at h₂
      rcases hrow : col.tasks[b.activeRow]? with _ | u
      · rw [hrow] at h₂
        cases h₂
      · rw [hrow] at h₂
        injection h₂ with h₂
        refine ⟨col, List.getElem?_mem hcol, ?_⟩
        rw [← h₂]
        exact List.getElem?_mem hrow

/-- Claim C10: a non-archived task whose status matches no display status
is kept in the board's task list after a reload — so it is counted in the
status-bar total and the clear-all count, and an executed clear-all
archives it — but it is assigned to no column, hence never rendered and
never selectable. -/
theorem orphan_status_task (b : Board) (ts : List Task) (t : Task)
    (hmem : t ∈ ts)
    (hnarch : ¬ isArchivedStatus b.cfg t.status)
    (hnodisp : t.status ∉ boardStatuses b.cfg) :
    t ∈ (loadTasks b (Except.ok ts)).tasks ∧
    (∀ c ∈ (loadTasks b (Except.ok ts)).columns, t ∉ c.tasks) ∧
    (∀ cIdx rIdx : Nat,
      selectedTask
        { loadTasks b (Except.ok ts) with
            activeCol := cIdx
            activeRow := rIdx } ≠ some t) ∧
    (handleClearAllStart (loadTasks b (Except.ok ts))).clearAllCount =
      (loadTasks b (Except.ok ts)).tasks.length ∧
    { t with status := archivedStatus } ∈ executeClearAllWrites b.cfg ts := by
  have h1 : t ∈ (loadTasks b (Except.ok ts)).tasks := by
    simp only [loadTasks]
    rw [clampRow_tasks]
    show t ∈ boardSortPriorityRev b.cfg
      (ts.filter (fun u => ¬ isArchivedStatus b.cfg u.status))
    rw [boardSortPriorityRev, mem_sortTasksBy, List.mem_filter]
    exact ⟨hmem, by simp [hnarch]⟩
  have h2 : ∀ c ∈ (loadTasks b (Except.ok ts)).columns, t ∉ c.tasks := by
    intro c hc ht
    simp only [loadTasks] at hc
    obtain ⟨c₀, hc₀, htasks, _⟩ := clampRow_columns_shape _ c hc
    have hc₀b : c₀ ∈ buildColumns (boardStatuses b.cfg)
        (boardSortPriorityRev b.cfg
          (ts.filter (fun u => ¬ isArchivedStatus b.cfg u.status))) := hc₀
    obtain ⟨hstat, hinv⟩ := buildColumns_inv _ _ c₀ hc₀b
    rw [htasks] at ht
    have hts := hinv t ht
    exact hnodisp (by rw [hts]; exact hstat)
  refine ⟨h1, h2, ?_, ?_, ?_⟩
  · intro cIdx rIdx hsel
    obtain ⟨col, hcolmem, htmem⟩ := selectedTask_mem _ _ hsel
    have hcolmem₂ : col ∈ (loadTasks b (Except.ok ts)).columns := hcolmem
    exact h2 col hcolmem₂ htmem
  · simp only [handleClearAllStart]
    split_ifs <;> rfl
  · rw [executeClearAllWrites]
    exact List.mem_map_of_mem _ (List.mem_filter.mpr ⟨hmem, by simp [hnarch]⟩)

/-- Witness for C10 at a concrete input: a task whose status "stuck" is
neither archived nor a display status stays in the task list, lands in
no column, is never selectable, is counted by clear-all, and is archived
by an executed clear-all. -/
theorem orphan_status_task_witness :
    (taskD 9 "x" "stuck" "p1") ∈
      (loadTasks boardInit (Except.ok [taskD 9 "x" "stuck" "p1"])).tasks ∧
    (∀ c ∈ (loadTasks boardInit
        (Except.ok [taskD 9 "x" "stuck" "p1"])).columns,
      (taskD 9 "x" "stuck" "p1") ∉ c.tasks) ∧
    (∀ cIdx rIdx : Nat,
      selectedTask
        { loadTasks boardInit (Except.ok [taskD 9 "x" "stuck" "p1"]) with
            activeCol := cIdx
            activeRow := rIdx } ≠ some (taskD 9 "x" "stuck" "p1")) ∧
    (handleClearAllStart
        (loadTasks boardInit
          (Except.ok [taskD 9 "x" "stuck" "p1"]))).clearAllCount =
      (loadTasks boardInit
        (Except.ok [taskD 9 "x" "stuck" "p1"])).tasks.length ∧
    { taskD 9 "x" "stuck" "p1" with status := archivedStatus } ∈
      executeClearAllWrites boardInit.cfg [taskD 9 "x" "stuck" "p1"] :=
  orphan_status_task boardInit [taskD 9 "x" "stuck" "p1"]
    (taskD 9 "x" "stuck" "p1") (by decide) (by decide) (by decide)

theorem ensureVisible_clicks (b : Board) :
    (Board.ensureVisible b).lastClickCol = b.lastClickCol ∧
    (Board.ensureVisible b).lastClickRow = b.lastClickRow ∧
    (Board.ensureVisible b).lastClickTime = b.lastClickTime := by
  rcases hcol : b.columns[b.activeCol]? with _ | col <;>
    simp [Board.ensureVisible, hcol]

/-- Claim C5: on a card hit in Normal view, the activate effect fires if
and only if the previously recorded card hit was on the identical
(column, row) and the time delta is strictly under 500 ms
(500000000 ns); and the click-tracking state is updated unconditionally
to the new hit. -/
theorem handleMouse_doubleclick (b : Board) (msg : MouseMsg) (now : Int)
    (ha : msg.action = MouseAction.press)
    (hb : msg.button = MouseButton.left)
    (hv : b.view = BView.board)
    (hw : 0 < columnWidth b)
    (hcol : (Int.tdiv (msg.x : Int) (columnWidth b)).toNat <
      b.columns.length)
    (col : Column)
    (hgetcol : b.columns[(Int.tdiv (msg.x : Int)
      (columnWidth b)).toNat]? = some col)
    (hy : 1 ≤ msg.y)
    (row : Nat)
    (hhit : hitGo b.titleSeq (columnWidth b) ((msg.y : Int) - 1)
      (col.tasks.drop col.scrollOff) col.scrollOff 0 = some row) :
    ((handleMouse b msg now).2 = true ↔
      ((Int.tdiv (msg.x : Int) (columnWidth b)).toNat = b.lastClickCol ∧
        row = b.lastClickRow ∧ now - b.lastClickTime < 500000000)) ∧
    (handleMouse b msg now).1.lastClickCol =
      (Int.tdiv (msg.x : Int) (columnWidth b)).toNat ∧
    (handleMouse b msg now).1.lastClickRow = row ∧
    (handleMouse b msg now).1.lastClickTime = now := by
  have hc1 : ¬ (msg.action ≠ MouseAction.press ∨
      msg.button ≠ MouseButton.left) := by
    rw [ha, hb]
    simp
  have hc2 : ¬ (b.view ≠ BView.board) := by
    rw [hv]
    simp
  have h0 : (0 : Int) ≤ Int.tdiv (msg.x : Int) (columnWidth b) :=
    Int.tdiv_nonneg (by positivity) (le_of_lt hw)
  have hc3 : ¬ ((b.columns.length : Int) ≤
      Int.tdiv (msg.x : Int) (columnWidth b)) := by
    rw [not_le, ← Int.toNat_of_nonneg h0]
    exact_mod_cast hcol
  have hc5 : ¬ ((msg.y : Int) - 1 < 0) := by omega
  have hred : handleMouse b msg now =
      (Board.ensureVisible
        { b with
            activeCol := (Int.tdiv (msg.x : Int) (columnWidth b)).toNat
            activeRow := row
            lastClickCol := (Int.tdiv (msg.x : Int) (columnWidth b)).toNat
            lastClickRow := row
            lastClickTime := now },
       decide ((Int.tdiv (msg.x : Int) (columnWidth b)).toNat =
          b.lastClickCol ∧
        row = b.lastClickRow ∧ now - b.lastClickTime < 500000000)) := by
    simp only [handleMouse]
    rw [if_neg hc1, if_neg hc2, if_neg hc3]
    simp only [hgetcol]
    rw [if_neg hc5]
    simp only [hhit]
  rw [hred]
  obtain ⟨hlc, hlr, hlt⟩ := ensureVisible_clicks
    { b with
        activeCol := (Int.tdiv (msg.x : Int) (columnWidth b)).toNat
        activeRow := row
        lastClickCol := (Int.tdiv (msg.x : Int) (columnWidth b)).toNat
        lastClickRow := row
        lastClickTime := now }
  exact ⟨by simp, by rw [hlc], by rw [hlr], by rw [hlt]⟩

/-- Witness for C5 at a concrete input: a second identical click 100 ns
later fires the activate effect, and the tracking state is updated. -/
theorem handleMouse_doubleclick_witness :
    ((handleMouse bDouble msgW 200).2 = true ↔
      ((Int.tdiv ((msgW.x : Nat) : Int) (columnWidth bDouble)).toNat =
          bDouble.lastClickCol ∧
        0 = bDouble.lastClickRow ∧
        (200 : Int) - bDouble.lastClickTime < 500000000)) ∧
    (handleMouse bDouble msgW 200).1.lastClickCol =
      (Int.tdiv ((msgW.x : Nat) : Int) (columnWidth bDouble)).toNat ∧
    (handleMouse bDouble msgW 200).1.lastClickRow = 0 ∧
    (handleMouse bDouble msgW 200).1.lastClickTime = 200 :=
  handleMouse_doubleclick bDouble msgW 200 rfl rfl (by decide) (by decide)
    (by decide) colW (by decide) (by decide) 0 (by decide)

end Agentwatch

